import Mathlib

/-!
Shallow embedding of the text-splitting engine of `domCrawler.js`
(the feature-complete second version of the file), together with models
of the DOM splice operations and the paced replacement driver.

JS strings are modelled as lists of characters (`JStr`); JS arrays as
Lean lists.  The regex engine is external to the library, so a regex is
modelled abstractly as a `JSRegExp`: a `global` flag plus a total search
function `find s start` returning the first match at offset `≥ start`
(index, matched text, capture groups).  `RegExp#exec` is modelled on top
of that, including its use of `lastIndex` for global patterns.

The `while(match = separator.exec(str))` loop of `strSplitAndJoin` need
not terminate (nothing bounds it when a match consumes zero characters),
so the regex branch is written with explicit fuel; running out of fuel
yields the error `SJErr.outOfFuel`, and a run that returns
`SJErr.outOfFuel` for *every* fuel value is a non-terminating run of the
source loop.

Replacer functions are impure in JS (each call of a node-valued replacer
allocates a fresh clone), so a normalized replacer is modelled as a
function of the invocation ordinal as well as of the call payload:
`Nat → RepCall → α`.  Fresh identity of clones is modelled by deriving a
distinct node id from the invocation ordinal.
-/

deriving instance DecidableEq for Except

namespace domCrawler

/-- JS strings as sequences of code units. -/
abbrev JStr := List Char

/-- Result of a successful regex search: start index, matched text,
capture groups (`none` = an unmatched group, i.e. JS `undefined`). -/
structure RMatch where
  index : Nat
  matched : JStr
  groups : List (Option JStr)
deriving DecidableEq, Repr

/-- Abstract model of a JS `RegExp` object: its `global` flag and a pure
search function returning the first match at offset `≥ start`. -/
structure JSRegExp where
  global : Bool
  find : JStr → Nat → Option RMatch

/-- Model of `RegExp.prototype.exec` on a string `s` with current
`lastIndex` value `li`: a global regex searches from `lastIndex` and
updates it, a non-global regex always searches from offset 0 and leaves
`lastIndex` alone.  Returns the optional match and the new `lastIndex`. -/
def JSRegExp.exec (re : JSRegExp) (s : JStr) (li : Nat) : Option RMatch × Nat :=
  let start := if re.global then li else 0
  if start > s.length then (none, 0)
  else
    match re.find s start with
    | none => (none, if re.global then 0 else li)
    | some m => (some m, if re.global then m.index + m.matched.length else li)

/-- The argument package a function replacer receives in the regex
branch: `replacer.call(str, ...match, match.index, str)`, i.e. the full
match text, the capture groups, the match index, and the string the
match was run on. -/
structure RepArgs where
  full : JStr
  groups : List (Option JStr)
  index : Nat
  input : JStr
deriving DecidableEq, Repr

/-- One invocation of the (normalized) replacer: in the literal branch it
is called as `replacer(separator)`, in the regex branch with the spread
match data. -/
inductive RepCall where
  | lit (sep : JStr)
  | re (args : RepArgs)
deriving DecidableEq, Repr

/-- One element of the array `strSplitAndJoin` returns: a plain substring
or an opaque replacement payload produced by the replacer. -/
inductive Frag (α : Type) where
  | str (s : JStr)
  | payload (a : α)
deriving DecidableEq, Repr

/-- Failure modes of the engine: `strSplitAndJoin` throws a `TypeError`
(the spec's `InvalidPatternError`) on a pattern that is neither a string
nor a `RegExp`; `outOfFuel` marks a run of the unbounded regex loop that
did not finish within the given fuel. -/
inductive SJErr where
  | invalidPattern
  | outOfFuel
deriving DecidableEq, Repr

/-- The `separator` parameter: a literal string, a `RegExp`, or any
other JS value (which the source rejects with a `TypeError`). -/
inductive Pattern (α : Type) where
  | lit (s : JStr)
  | regex (re : JSRegExp)
  | invalid

/-- A normalized replacer: a function of the invocation ordinal (JS
replacers are impure; the ordinal models the allocation state visible to
a node-cloning replacer) and of the call payload. -/
abbrev NReplacer (α : Type) := Nat → RepCall → α

/-- Normalization of a function replacer: the source uses it as is
(invocation ordinal ignored). -/
def normFunc (g : RepCall → α) : NReplacer α := fun _ c => g c

/-- Normalization of a non-function, non-Node replacer:
`replacer = () => temp`. -/
def normConst (v : α) : NReplacer α := fun _ _ => v

/-- Minimal model of a DOM node as mutable data addressed by an id: the
id is the node's identity in a store, `data` its content. -/
structure CNode where
  id : Nat
  data : JStr
deriving DecidableEq, Repr

/-- Model of `temp.cloneNode(true)` at the k-th replacer invocation: a
structurally equal node with a fresh identity. -/
def cloneNode (tpl : CNode) (k : Nat) : CNode :=
  { tpl with id := tpl.id + k + 1 }

/-- Normalization of a Node replacer: `replacer = () => temp.cloneNode(true)`,
a fresh deep clone per invocation. -/
def normNode (tpl : CNode) : NReplacer CNode := fun k _ => cloneNode tpl k

/-- A store assigning content to node ids; mutating one node's content. -/
def setData (store : Nat → JStr) (i : Nat) (v : JStr) : Nat → JStr :=
  fun j => if j = i then v else store j

/-! ### JS `String.prototype.split` with a string separator -/

/-- Leftmost-match splitting on a non-empty separator `sep`; `acc` holds
the (reversed) characters of the piece being built.  The recursion is on
`fuel` so that the kernel can evaluate the definition; each step consumes
at least one character of `s`, so `fuel = s.length` never runs out (the
fuel-exhaustion branch returns the remaining input as the last piece,
which keeps the correctness lemmas unconditional). -/
def jsSplitAux (sep : JStr) : Nat → JStr → JStr → List JStr
  | _, acc, [] => [acc.reverse]
  | 0, acc, s => [acc.reverse ++ s]
  | fuel + 1, acc, c :: rest =>
    if sep.isPrefixOf (c :: rest) then
      acc.reverse :: jsSplitAux sep fuel [] (rest.drop (sep.length - 1))
    else
      jsSplitAux sep fuel (c :: acc) rest

/-- ECMAScript `str.split(sep)` (no limit): an empty separator splits
into single code units (and splits `""` into `[]`); a non-empty
separator splits on each leftmost non-overlapping occurrence. -/
def jsSplit (str sep : JStr) : List JStr :=
  match sep with
  | [] => str.map (fun c => [c])
  | _ :: _ => jsSplitAux sep str.length [] str

/-! ### `domCrawler.strSplitAndJoin` -/

/-- The literal-separator branch: `str.split(separator)` followed by the
downward splice loop `for(let i = result.length - 1; i > 0; --i)
result.splice(i, 0, replacer(separator))`, which inserts one replacer
call per gap, first call at the rightmost gap.  Returns the number of
replacer invocations made and the glued list; invocation `k` fills the
k-th gap counted from the right. -/
def glueAux (rep : NReplacer α) (sep : JStr) : List JStr → Nat × List (Frag α)
  | [] => (0, [])
  | [p] => (0, [Frag.str p])
  | p :: q :: rest =>
    let t := glueAux rep sep (q :: rest)
    (t.1 + 1, Frag.str p :: Frag.payload (rep t.1 (RepCall.lit sep)) :: t.2)

/-- The regex branch: `separator.lastIndex = 0;
while(match = separator.exec(str)) { result.push(str.substring(0, match.index),
replacer.call(str, ...match, match.index, str));
str = str.substring(match.index + match[0].length); separator.lastIndex = 0; }
result.push(str);` — `li` is the regex's `lastIndex` at loop entry (always
0, because of the resets), `k` the replacer invocation ordinal, `acc` the
`result` array built so far. -/
def regexLoop (re : JSRegExp) (rep : NReplacer α) :
    Nat → JStr → Nat → Nat → List (Frag α) → Except SJErr (List (Frag α))
  | 0, _, _, _, _ => .error .outOfFuel
  | fuel + 1, str, li, k, acc =>
    match (re.exec str li).1 with
    | none => .ok (acc ++ [Frag.str str])
    | some m =>
      regexLoop re rep fuel (str.drop (m.index + m.matched.length)) 0 (k + 1)
        (acc ++ [Frag.str (str.take m.index),
                 Frag.payload (rep k (RepCall.re ⟨m.matched, m.groups, m.index, str⟩))])

/-- `domCrawler.strSplitAndJoin(str, separator, replacer)` with the
replacer already normalized (`NReplacer`).  `lastIndex` is the value of
`separator.lastIndex` at call time; the source overwrites it with 0
(`separator.lastIndex = 0; // in case that the RegExp is for global match`)
before the scan, so the loop is entered with `li = 0`. -/
def strSplitAndJoin (fuel : Nat) (str : JStr) (separator : Pattern α)
    (_lastIndex : Nat) (rep : NReplacer α) : Except SJErr (List (Frag α)) :=
  match separator with
  | .lit sep => .ok (glueAux rep sep (jsSplit str sep)).2
  | .invalid => .error .invalidPattern
  | .regex re => regexLoop re rep fuel str 0 0 []

/-- The fragments of a result, with errors mapped to the empty list. -/
def fragsOf : Except SJErr (List (Frag α)) → List (Frag α)
  | .ok l => l
  | .error _ => []

/-- The string-typed fragments of a sequence, in order. -/
def stringsOf : List (Frag α) → List JStr
  | [] => []
  | Frag.str s :: rest => s :: stringsOf rest
  | Frag.payload _ :: rest => stringsOf rest

/-- The payloads of a sequence, in order. -/
def payloadsOf : List (Frag α) → List α
  | [] => []
  | Frag.str _ :: rest => payloadsOf rest
  | Frag.payload a :: rest => a :: payloadsOf rest

/-! ### `domCrawler.strSplitAndJoinByRules` -/

/-- One rule of `strSplitAndJoinByRules`: a pattern, a (normalized)
replacer, and the optional minimum fragment length.  `minLength = 0`
models an absent / falsy `minLength` (the source tests
`rule.minLength && frag.length < rule.minLength`, and `0` is falsy). -/
structure Rule (α : Type) where
  pattern : Pattern α
  replacer : NReplacer α
  minLength : Nat := 0

/-- Loose string equality used by `debris[0] == frag`: a string fragment
compares by content, an opaque payload is never equal to a string. -/
def fragEqStr : Frag α → JStr → Bool
  | Frag.str t, s => t = s
  | Frag.payload _, _ => false

/-- The body of the splice loop of `strSplitAndJoinByRules` for one
fragment: non-string fragments and string fragments shorter than
`minLength` are skipped (`continue`), otherwise `strSplitAndJoin` runs
and its result replaces the fragment unless it is the no-op singleton
(`debris.length == 1 && debris[0] == frag`). -/
def expandFrag (fuel : Nat) (rule : Rule α) : Frag α → Except SJErr (List (Frag α))
  | Frag.payload a => .ok [Frag.payload a]
  | Frag.str s =>
    if rule.minLength ≠ 0 ∧ s.length < rule.minLength then .ok [Frag.str s]
    else do
      let debris ← strSplitAndJoin fuel s rule.pattern 0 rule.replacer
      match debris with
      | [d] => if fragEqStr d s then pure [Frag.str s] else pure debris
      | _ => pure debris

/-- One pass of the splice loop `for(let i = splitted.length - 1; i >= 0; --i)`
over the whole fragment list: each fragment is replaced in place by its
expansion; the loop runs right to left, so the rightmost fragment's
replacer invocations happen first. -/
def expandAll (fuel : Nat) (rule : Rule α) : List (Frag α) → Except SJErr (List (Frag α))
  | [] => .ok []
  | f :: rest => do
    let tail ← expandAll fuel rule rest
    let d ← expandFrag fuel rule f
    pure (d ++ tail)

/-- `domCrawler.strSplitAndJoinByRules(str, rules)`:
`rules.reduce((splitted, rule) => { ...splice loop... }, [str])`. -/
def strSplitAndJoinByRules (fuel : Nat) (str : JStr) (rules : List (Rule α)) :
    Except SJErr (List (Frag α)) :=
  rules.foldlM (fun splitted rule => expandAll fuel rule splitted) [Frag.str str]

/-! ### The engine with general (possibly string-valued) replacers

The `NReplacer`-based definitions above model the case of replacers whose
outputs are non-string JS values, wrapped as opaque `Frag.payload`s.  In
the source, however, a replacer may also return a **string** (e.g.
`replacer: "GitHub"` in the README): such an output is pushed into the
array as a plain string, is indistinguishable from a split piece to the
`typeof frag != "string"` gate, and is therefore re-scanned — and possibly
split further or deleted — by later rules.  The `V`-suffixed definitions
below model the general case: a replacer returns a JS value `Frag α`,
either a string (`Frag.str`) or a non-string (`Frag.payload`), and the
returned value is pushed into the result array as is.  The lemma
`strSplitAndJoinV_toV` below proves that the earlier chain is exactly the
specialization of this one to replacers with non-string outputs. -/

/-- A normalized replacer returning a general JS value: a string or a
non-string opaque value (the `Nat` is the invocation ordinal, as in
`NReplacer`). -/
abbrev VReplacer (α : Type) := Nat → RepCall → Frag α

/-- The literal-branch splice loop with a general replacer: identical to
`glueAux`, except that the replacer's return value is pushed as is. -/
def glueAuxV (rep : VReplacer α) (sep : JStr) : List JStr → Nat × List (Frag α)
  | [] => (0, [])
  | [p] => (0, [Frag.str p])
  | p :: q :: rest =>
    let t := glueAuxV rep sep (q :: rest)
    (t.1 + 1, Frag.str p :: rep t.1 (RepCall.lit sep) :: t.2)

/-- The regex loop with a general replacer: identical to `regexLoop`,
except that the replacer's return value is pushed as is. -/
def regexLoopV (re : JSRegExp) (rep : VReplacer α) :
    Nat → JStr → Nat → Nat → List (Frag α) → Except SJErr (List (Frag α))
  | 0, _, _, _, _ => .error .outOfFuel
  | fuel + 1, str, li, k, acc =>
    match (re.exec str li).1 with
    | none => .ok (acc ++ [Frag.str str])
    | some m =>
      regexLoopV re rep fuel (str.drop (m.index + m.matched.length)) 0 (k + 1)
        (acc ++ [Frag.str (str.take m.index),
                 rep k (RepCall.re ⟨m.matched, m.groups, m.index, str⟩)])

/-- `domCrawler.strSplitAndJoin` with a general replacer. -/
def strSplitAndJoinV (fuel : Nat) (str : JStr) (separator : Pattern α)
    (_lastIndex : Nat) (rep : VReplacer α) : Except SJErr (List (Frag α)) :=
  match separator with
  | .lit sep => .ok (glueAuxV rep sep (jsSplit str sep)).2
  | .invalid => .error .invalidPattern
  | .regex re => regexLoopV re rep fuel str 0 0 []

/-- A rule with a general (possibly string-valued) replacer. -/
structure RuleV (α : Type) where
  pattern : Pattern α
  replacer : VReplacer α
  minLength : Nat := 0

/-- The splice-loop body of `strSplitAndJoinByRules` for one fragment,
with general replacers: the `typeof frag != "string"` gate skips exactly
the non-string values, so a string previously produced by a replacer is
re-scanned like any split piece. -/
def expandFragV (fuel : Nat) (rule : RuleV α) : Frag α → Except SJErr (List (Frag α))
  | Frag.payload a => .ok [Frag.payload a]
  | Frag.str s =>
    if rule.minLength ≠ 0 ∧ s.length < rule.minLength then .ok [Frag.str s]
    else do
      let debris ← strSplitAndJoinV fuel s rule.pattern 0 rule.replacer
      match debris with
      | [d] => if fragEqStr d s then pure [Frag.str s] else pure debris
      | _ => pure debris

/-- One right-to-left pass of the splice loop, with general replacers. -/
def expandAllV (fuel : Nat) (rule : RuleV α) :
    List (Frag α) → Except SJErr (List (Frag α))
  | [] => .ok []
  | f :: rest => do
    let tail ← expandAllV fuel rule rest
    let d ← expandFragV fuel rule f
    pure (d ++ tail)

/-- `domCrawler.strSplitAndJoinByRules` with general replacers. -/
def strSplitAndJoinByRulesV (fuel : Nat) (str : JStr) (rules : List (RuleV α)) :
    Except SJErr (List (Frag α)) :=
  rules.foldlM (fun splitted rule => expandAllV fuel rule splitted) [Frag.str str]

/-- Embedding of a non-string-valued replacer into the general model. -/
def toVRep (rep : NReplacer α) : VReplacer α :=
  fun k c => Frag.payload (rep k c)

/-- Embedding of a rule with a non-string-valued replacer. -/
def Rule.toV (r : Rule α) : RuleV α :=
  ⟨r.pattern, toVRep r.replacer, r.minLength⟩

/-! ### `domCrawler.replaceTextNode` and the DOM splice model -/

/-- A child entry of the parent's child list: the original text node
being replaced (with its identity `id`), a text node freshly created by
`replaceWith` from a string fragment, a payload value inserted as-is, or
some unrelated sibling node. -/
inductive DomChild (α : Type) where
  | textNode (id : Nat) (content : JStr)
  | newText (content : JStr)
  | payloadNode (a : α)
  | otherNode (id : Nat)
deriving DecidableEq, Repr

/-- How `replaceWith` materializes one fragment into the child list:
strings become fresh text nodes, anything else is inserted as-is. -/
def fragToChild : Frag α → DomChild α
  | Frag.str s => DomChild.newText s
  | Frag.payload a => DomChild.payloadNode a

/-- One argument of the callback invocation
`callback.call(textNode, newNodes, parent, textNode, changed)`. -/
inductive CbArg (α : Type) where
  | nodeSeq (l : List (Frag α))
  | domNode (n : DomChild α)
  | flag (b : Bool)
deriving DecidableEq, Repr

/-- Observable outcome of `replaceTextNode`: the parent's child list
after the call, the returned array `newNodes`, the `changed` flag, and
the argument list of the callback invocation (if a callback was given). -/
structure RTNOut (α : Type) where
  children : List (DomChild α)
  returned : List (Frag α)
  changed : Bool
  cbArgs : Option (List (CbArg α))
deriving DecidableEq, Repr

/-- `domCrawler.replaceTextNode(textNode, rules, wrapper, callback)` for a
text node with identity `tid` and content `content`, sitting between the
siblings `pre` and `post` in the child list of its parent (a node of
identity `pid`).  `wrapper = none` models an absent / non-function
wrapper; `hasCallback` whether a callback function was supplied (the
model records the exact argument list passed to it). -/
def wrapApply (wrapper : Option (List (Frag α) → List (Frag α)))
    (splitted : List (Frag α)) : List (Frag α) :=
  match wrapper with
  | none => splitted
  | some w => w splitted

/-- `changed = newNodes.length !== 1 || newNodes[0] != textNode.textContent`. -/
def changedOf (newNodes : List (Frag α)) (content : JStr) : Bool :=
  match newNodes with
  | [f] => ! fragEqStr f content
  | _ => true

def replaceTextNode (fuel : Nat) (pre post : List (DomChild α)) (pid tid : Nat)
    (content : JStr) (rules : List (Rule α))
    (wrapper : Option (List (Frag α) → List (Frag α))) (hasCallback : Bool) :
    Except SJErr (RTNOut α) := do
  let splitted ← strSplitAndJoinByRules fuel content rules
  let newNodes := wrapApply wrapper splitted
  let changed := changedOf newNodes content
  let orig := DomChild.textNode tid content
  let children :=
    if changed then pre ++ newNodes.map fragToChild ++ post
    else pre ++ [orig] ++ post
  let cbArgs :=
    if hasCallback then
      some [CbArg.nodeSeq newNodes, CbArg.domNode (DomChild.otherNode pid),
            CbArg.domNode orig, CbArg.flag changed]
    else none
  pure ⟨children, newNodes, changed, cbArgs⟩

/-! ### `domCrawler.replaceTexts` scheduling trace -/

/-- Observable events of one `replaceTexts` run: a suspension on
`await Promise.resolve()` (a microtask yield), a suspension on
`await new Promise(resolve => setTimeout(resolve, delay))` (a timed
yield back to the host scheduler), or the processing of one text node
by `replaceTextNode`. -/
inductive PEvent (α : Type) where
  | microYield
  | timeoutYield (ms : Nat)
  | process (x : α)
deriving DecidableEq, Repr

/-- The loop body of `replaceTexts` from index `i` on:
`if(delay > 0) { if(!i) await Promise.resolve();
else if(!(i % size)) await new Promise(resolve => setTimeout(resolve, delay)); }
domCrawler.replaceTextNode(textNodes[i], ...)`. -/
def replaceTextsAux (delay size : Nat) : Nat → List α → List (PEvent α)
  | _, [] => []
  | i, x :: rest =>
    ((if 0 < delay then
        if i = 0 then [PEvent.microYield]
        else if i % size = 0 then [PEvent.timeoutYield delay]
        else []
      else []) ++ [PEvent.process x])
      ++ replaceTextsAux delay size (i + 1) rest

/-- The event trace of `domCrawler.replaceTexts` over the snapshot
`textNodes` of text nodes, with the given `delay` and group `size`. -/
def replaceTextsTrace (delay size : Nat) (nodes : List α) : List (PEvent α) :=
  replaceTextsAux delay size 0 nodes

/-- The node processed by an event, if it is a processing event. -/
def procOf : PEvent α → Option α
  | PEvent.process x => some x
  | _ => none

/-! ### Concrete regex instances -/

/-- The regex `/,/`: its first match at offset `≥ start` is the first
comma there, matching one character, with no capture groups. -/
def commaRe : JSRegExp where
  global := false
  find := fun s start =>
    ((s.drop start).findIdx? (fun c => c = ',')).map
      (fun i => { index := start + i, matched := [','], groups := [] })

/-- The regex `/x*/`: it matches at the very first attempted offset,
consuming the (possibly empty) run of `x`s there. -/
def xstarRe : JSRegExp where
  global := false
  find := fun s start =>
    if start ≤ s.length then
      some { index := start, matched := (s.drop start).takeWhile (fun c => c = 'x'),
             groups := [] }
    else none

/-- A replacer that records its own invocation payload, making the exact
arguments of every replacer call observable in the result. -/
def idRep : NReplacer RepCall := fun _ c => c

/-! ### Basic lemmas about the projections -/

theorem payloadsOf_append (l₁ l₂ : List (Frag α)) :
    payloadsOf (l₁ ++ l₂) = payloadsOf l₁ ++ payloadsOf l₂ := by
  induction l₁ with
  | nil => rfl
  | cons f rest ih => cases f <;> simp [payloadsOf, ih]

theorem stringsOf_append (l₁ l₂ : List (Frag α)) :
    stringsOf (l₁ ++ l₂) = stringsOf l₁ ++ stringsOf l₂ := by
  induction l₁ with
  | nil => rfl
  | cons f rest ih => cases f <;> simp [stringsOf, ih]

theorem payloadsOf_singleton_str (s : JStr) :
    payloadsOf [Frag.str s (α := α)] = [] := rfl

/-! ### Lemmas about `jsSplit` -/

theorem jsSplitAux_ne_nil (sep : JStr) (fuel : Nat) (acc s : JStr) :
    jsSplitAux sep fuel acc s ≠ [] := by
  match fuel, s with
  | _, [] => simp [jsSplitAux]
  | 0, c :: rest => simp [jsSplitAux]
  | fuel + 1, c :: rest =>
    rw [jsSplitAux]
    split <;> simp [jsSplitAux_ne_nil]

theorem jsSplitAux_singleton (sep : JStr) :
    ∀ (fuel : Nat) (acc s t : JStr), jsSplitAux sep fuel acc s = [t] →
      t = acc.reverse ++ s := by
  intro fuel
  induction fuel with
  | zero =>
    intro acc s t h
    match s with
    | [] => simp [jsSplitAux] at h; simp [h]
    | c :: rest => simp [jsSplitAux] at h; simp [h]
  | succ fuel ih =>
    intro acc s t h
    match s with
    | [] => simp [jsSplitAux] at h; simp [h]
    | c :: rest =>
      rw [jsSplitAux] at h
      split at h
      · exact absurd (List.cons.inj h).2 (jsSplitAux_ne_nil sep fuel [] _)
      · simpa using ih (c :: acc) rest t h

/-- A single-piece split result is always the whole input string:
`str.split(sep).length == 1` happens exactly when `sep` does not occur. -/
theorem jsSplit_singleton (str sep t : JStr) (h : jsSplit str sep = [t]) :
    t = str := by
  match sep with
  | [] =>
    unfold jsSplit at h
    match str with
    | [] => simp at h
    | [c] => simp at h; simp [h]
    | c :: d :: rest => simp at h
  | c :: rest =>
    simpa using jsSplitAux_singleton (c :: rest) str.length [] str t h

/-! ### Lemmas about `glueAux` (the literal branch) -/

theorem glueAux_strings (rep : NReplacer α) (sep : JStr) :
    ∀ pieces : List JStr, stringsOf (glueAux rep sep pieces).2 = pieces := by
  intro pieces
  match pieces with
  | [] => rfl
  | [p] => rfl
  | p :: q :: rest =>
    simp [glueAux, stringsOf, glueAux_strings rep sep (q :: rest)]

theorem glueAux_gaps (rep : NReplacer α) (sep : JStr) :
    ∀ pieces : List JStr, (glueAux rep sep pieces).1 = pieces.length - 1 := by
  intro pieces
  match pieces with
  | [] => rfl
  | [p] => rfl
  | p :: q :: rest =>
    simp [glueAux, glueAux_gaps rep sep (q :: rest)]

theorem glueAux_payloads (rep : NReplacer α) (sep : JStr) :
    ∀ pieces : List JStr,
      payloadsOf (glueAux rep sep pieces).2 =
        (List.range (glueAux rep sep pieces).1).reverse.map
          (fun k => rep k (RepCall.lit sep)) := by
  intro pieces
  match pieces with
  | [] => rfl
  | [p] => rfl
  | p :: q :: rest =>
    simp [glueAux, payloadsOf, glueAux_payloads rep sep (q :: rest),
      List.range_succ]

theorem glueAux_payload_count (rep : NReplacer α) (sep : JStr) (pieces : List JStr) :
    (payloadsOf (glueAux rep sep pieces).2).length = pieces.length - 1 := by
  rw [glueAux_payloads, ← glueAux_gaps rep sep pieces]
  simp

/-! ### Lemmas about `regexLoop` -/

/-- The loop only ever appends to the `result` array. -/
theorem regexLoop_acc_prefix (re : JSRegExp) (rep : NReplacer α) :
    ∀ (fuel : Nat) (str : JStr) (li k : Nat) (acc out : List (Frag α)),
      regexLoop re rep fuel str li k acc = .ok out → ∃ ext, out = acc ++ ext := by
  intro fuel
  induction fuel with
  | zero => intro str li k acc out h; exact absurd h (by simp [regexLoop])
  | succ fuel ih =>
    intro str li k acc out h
    rw [regexLoop] at h
    split at h
    · exact ⟨[Frag.str str], (Except.ok.inj h).symm⟩
    · obtain ⟨ext, hext⟩ := ih _ _ _ _ _ h
      exact ⟨_, by simpa using hext⟩

/-- A successful run of the regex loop started with an empty `result`
either found no match at all (and returned the one-element array holding
the input string unchanged) or pushed at least one replacer payload. -/
theorem regexLoop_payload_or_single (re : JSRegExp) (rep : NReplacer α)
    (fuel : Nat) (str : JStr) (li k : Nat) (out : List (Frag α))
    (h : regexLoop re rep fuel str li k [] = .ok out) :
    out = [Frag.str str] ∨ ∃ a, Frag.payload a ∈ out := by
  match fuel with
  | 0 => exact absurd h (by simp [regexLoop])
  | fuel + 1 =>
    rw [regexLoop] at h
    split at h
    · exact Or.inl (by simpa using (Except.ok.inj h).symm)
    next m hm =>
      obtain ⟨ext, hext⟩ := regexLoop_acc_prefix re rep _ _ _ _ _ _ h
      exact Or.inr ⟨rep k (RepCall.re ⟨m.matched, m.groups, m.index, str⟩),
        by rw [hext]; simp⟩

/-- What holds of every replacer invocation the regex loop makes: the
`input` argument is the not-yet-consumed suffix of the original string,
and the full-match text, capture groups and index are those of the first
match of the pattern on exactly that suffix. -/
def ArgsOk (re : JSRegExp) (str₀ : JStr) (c : RepCall) : Prop :=
  ∃ args, c = RepCall.re args ∧ (∃ d, args.input = str₀.drop d) ∧
    (re.exec args.input 0).1 = some ⟨args.index, args.full, args.groups⟩

/-- Invariant proof for the recorded replacer arguments of the regex loop. -/
theorem regexLoop_args (re : JSRegExp) (str₀ : JStr) :
    ∀ (fuel k d : Nat) (acc out : List (Frag RepCall)),
      regexLoop re idRep fuel (str₀.drop d) 0 k acc = .ok out →
      (∀ a ∈ payloadsOf acc, ArgsOk re str₀ a) →
      ∀ a ∈ payloadsOf out, ArgsOk re str₀ a := by
  intro fuel
  induction fuel with
  | zero => intro k d acc out h; exact absurd h (by simp [regexLoop])
  | succ fuel ih =>
    intro k d acc out h hacc
    rw [regexLoop] at h
    split at h
    · intro a ha
      rw [← Except.ok.inj h, payloadsOf_append] at ha
      simp [payloadsOf] at ha
      exact hacc a ha
    next m hm =>
      rw [List.drop_drop] at h
      refine ih _ _ _ _ h ?_
      intro a ha
      rw [payloadsOf_append] at ha
      simp [payloadsOf, idRep] at ha
      rcases ha with ha | ha
      · exact hacc a ha
      · subst ha
        exact ⟨_, rfl, ⟨d, rfl⟩, hm⟩

/-- The first replacer invocation of the regex loop receives the whole
original string as its `input` argument. -/
theorem regexLoop_first_arg (re : JSRegExp) (str₀ : JStr) (fuel : Nat)
    (out : List (Frag RepCall)) (h : regexLoop re idRep fuel str₀ 0 0 [] = .ok out)
    (c : RepCall) (hc : (payloadsOf out).head? = some c) :
    ∃ args, c = RepCall.re args ∧ args.input = str₀ := by
  match fuel with
  | 0 => exact absurd h (by simp [regexLoop])
  | fuel + 1 =>
    rw [regexLoop] at h
    split at h
    · rw [← Except.ok.inj h] at hc
      simp [payloadsOf] at hc
    next m hm =>
      obtain ⟨ext, hext⟩ := regexLoop_acc_prefix re idRep _ _ _ _ _ _ h
      rw [hext] at hc
      simp [payloadsOf_append, payloadsOf, idRep] at hc
      exact ⟨_, hc.symm, rfl⟩

/-- One iteration of the regex loop on `"abc"` with `/x*/`: the match is
zero-length at index 0, so `str.substring(match.index + match[0].length)`
is `str` itself and the loop re-enters with the same string. -/
theorem xstar_step (rep : NReplacer α) (fuel k : Nat) (acc : List (Frag α)) :
    regexLoop xstarRe rep (fuel + 1) "abc".data 0 k acc =
      regexLoop xstarRe rep fuel "abc".data 0 (k + 1)
        (acc ++ [Frag.str [],
                 Frag.payload (rep k (RepCall.re ⟨[], [], 0, "abc".data⟩))]) := by
  rfl

/-- The regex loop on `"abc"` with `/x*/` exhausts every fuel bound:
the scan offset never advances, so the source loop never terminates. -/
theorem xstar_diverges (rep : NReplacer α) :
    ∀ (fuel k : Nat) (acc : List (Frag α)),
      regexLoop xstarRe rep fuel "abc".data 0 k acc = .error SJErr.outOfFuel := by
  intro fuel
  induction fuel with
  | zero => intro k acc; rfl
  | succ fuel ih =>
    intro k acc
    rw [xstar_step]
    exact ih _ _

/-! ### Lemmas about `expandFrag` / `expandAll` / the rules fold -/

theorem expandFrag_payload (fuel : Nat) (rule : Rule α) (a : α) :
    expandFrag fuel rule (Frag.payload a) = .ok [Frag.payload a] := rfl

theorem expandFrag_minLength (fuel : Nat) (rule : Rule α) (s : JStr)
    (h0 : rule.minLength ≠ 0) (hlt : s.length < rule.minLength) :
    expandFrag fuel rule (Frag.str s) = .ok [Frag.str s] := by
  simp [expandFrag, h0, hlt]

/-- A successful expansion of a string fragment either leaves it alone,
deletes it (only possible for the empty fragment with an empty literal
separator), or introduces at least one replacer payload. -/
theorem expandFrag_str_cases (fuel : Nat) (rule : Rule α) (s : JStr)
    (out : List (Frag α)) (h : expandFrag fuel rule (Frag.str s) = .ok out) :
    out = [Frag.str s] ∨ out = [] ∨ ∃ a, Frag.payload a ∈ out := by
  rw [show expandFrag fuel rule (Frag.str s) =
      (if rule.minLength ≠ 0 ∧ s.length < rule.minLength then .ok [Frag.str s]
       else do
         let debris ← strSplitAndJoin fuel s rule.pattern 0 rule.replacer
         match debris with
         | [d] => if fragEqStr d s then pure [Frag.str s] else pure debris
         | _ => pure debris) from rfl] at h
  split at h
  · exact Or.inl (Except.ok.inj h).symm
  · cases hsj : strSplitAndJoin fuel s rule.pattern 0 rule.replacer with
    | error e =>
      rw [hsj] at h
      exact absurd h (by simp [Bind.bind, Except.bind])
    | ok debris =>
      rw [hsj] at h
      simp only [Bind.bind, Except.bind] at h
      have hshape : debris = [Frag.str s] ∨ debris = [] ∨
          ∃ a, Frag.payload a ∈ debris := by
        cases hp : rule.pattern with
        | lit sep =>
          rw [hp] at hsj
          simp only [strSplitAndJoin] at hsj
          have hdeb := Except.ok.inj hsj
          cases hpieces : jsSplit s sep with
          | nil => rw [hpieces] at hdeb; exact Or.inr (Or.inl hdeb.symm)
          | cons p rest =>
            cases rest with
            | nil =>
              rw [hpieces] at hdeb
              have hp' : p = s := jsSplit_singleton s sep p hpieces
              exact Or.inl (by rw [← hdeb, hp']; rfl)
            | cons q rest' =>
              rw [hpieces] at hdeb
              refine Or.inr (Or.inr
                ⟨rule.replacer (glueAux rule.replacer sep (q :: rest')).1
                  (RepCall.lit sep), ?_⟩)
              rw [← hdeb]
              simp [glueAux]
        | regex re =>
          rw [hp] at hsj
          rcases regexLoop_payload_or_single re rule.replacer fuel s 0 0 debris hsj
            with h1 | h2
          · exact Or.inl h1
          · exact Or.inr (Or.inr h2)
        | invalid =>
          rw [hp] at hsj
          exact absurd hsj (by simp [strSplitAndJoin])
      rcases hshape with hdeb | hdeb | ⟨a, ha⟩
      · subst hdeb
        simp [fragEqStr, Pure.pure, Except.pure] at h
        exact Or.inl h.symm
      · subst hdeb
        simp [Pure.pure, Except.pure] at h
        exact Or.inr (Or.inl h)
      · match debris with
        | [Frag.str t] => simp at ha
        | [Frag.payload b] =>
          simp [fragEqStr, Pure.pure, Except.pure] at h
          exact Or.inr (Or.inr ⟨b, by simp [← h]⟩)
        | [] => simp at ha
        | x :: y :: rest =>
          simp [Pure.pure, Except.pure] at h
          exact Or.inr (Or.inr ⟨a, h ▸ ha⟩)

theorem expandAll_nil (fuel : Nat) (rule : Rule α) :
    expandAll fuel rule [] = .ok [] := rfl

theorem expandAll_cons_eq (fuel : Nat) (rule : Rule α) (f : Frag α)
    (rest : List (Frag α)) :
    expandAll fuel rule (f :: rest) =
      (do
        let tail ← expandAll fuel rule rest
        let d ← expandFrag fuel rule f
        pure (d ++ tail)) := rfl

/-- Decomposing one successful pass of the splice loop over a non-empty
fragment list. -/
theorem expandAll_cons (fuel : Nat) (rule : Rule α) (f : Frag α)
    (rest out : List (Frag α)) (h : expandAll fuel rule (f :: rest) = .ok out) :
    ∃ d tail, expandFrag fuel rule f = .ok d ∧ expandAll fuel rule rest = .ok tail ∧
      out = d ++ tail := by
  rw [expandAll_cons_eq] at h
  cases ht : expandAll fuel rule rest with
  | error e => rw [ht] at h; exact absurd h (by simp [Bind.bind, Except.bind])
  | ok tail =>
    rw [ht] at h
    cases hd : expandFrag fuel rule f with
    | error e => rw [hd] at h; exact absurd h (by simp [Bind.bind, Except.bind])
    | ok d =>
      rw [hd] at h
      simp only [Bind.bind, Except.bind, Pure.pure, Except.pure, Except.ok.injEq] at h
      exact ⟨d, tail, rfl, rfl, h.symm⟩

/-- Recomposing one pass of the splice loop. -/
theorem expandAll_cons_ok (fuel : Nat) (rule : Rule α) (f : Frag α)
    (rest : List (Frag α)) (d tail : List (Frag α))
    (hd : expandFrag fuel rule f = .ok d) (ht : expandAll fuel rule rest = .ok tail) :
    expandAll fuel rule (f :: rest) = .ok (d ++ tail) := by
  rw [expandAll_cons_eq, ht, hd]
  rfl

/-- A pass of the splice loop keeps the payloads of the current sequence
as a subsequence of the output: none is dropped, none is reordered (new
payloads produced by this rule are merely inserted around them). -/
theorem expandAll_payload_sublist (fuel : Nat) (rule : Rule α) :
    ∀ (l out : List (Frag α)), expandAll fuel rule l = .ok out →
      (payloadsOf l).Sublist (payloadsOf out) := by
  intro l
  induction l with
  | nil =>
    intro out h
    rw [← Except.ok.inj h]
  | cons f rest ih =>
    intro out h
    obtain ⟨d, tail, hd, ht, hout⟩ := expandAll_cons fuel rule f rest out h
    subst hout
    rw [payloadsOf_append]
    cases f with
    | payload a =>
      have : d = [Frag.payload a] :=
        (Except.ok.inj (expandFrag_payload fuel rule a ▸ hd)).symm
      subst this
      exact (ih tail ht).cons₂ a
    | str s =>
      exact ((ih tail ht).trans (List.sublist_append_right _ _)).trans
        (List.Sublist.refl _)

/-- Folding the remaining rules preserves any payload already present. -/
theorem rulesFold_payload_mem (fuel : Nat) :
    ∀ (rules : List (Rule α)) (l out : List (Frag α)) (a : α),
      rules.foldlM (fun splitted rule => expandAll fuel rule splitted) l = .ok out →
      a ∈ payloadsOf l → a ∈ payloadsOf out := by
  intro rules
  induction rules with
  | nil =>
    intro l out a h ha
    simp only [List.foldlM_nil, Pure.pure] at h
    exact (Except.ok.inj h) ▸ ha
  | cons r rest ih =>
    intro l out a h ha
    rw [List.foldlM_cons] at h
    cases h1 : expandAll fuel r l with
    | error e => rw [h1] at h; exact absurd h (by simp [Bind.bind, Except.bind])
    | ok l₁ =>
      rw [h1] at h
      exact ih l₁ out a h ((expandAll_payload_sublist fuel r l l₁ h1).subset ha)

/-- Folding any rules over the empty sequence yields the empty sequence. -/
theorem rulesFold_nil (fuel : Nat) :
    ∀ (rules : List (Rule α)) (out : List (Frag α)),
      rules.foldlM (fun splitted rule => expandAll fuel rule splitted)
        ([] : List (Frag α)) = .ok out → out = [] := by
  intro rules
  induction rules with
  | nil =>
    intro out h
    simp only [List.foldlM_nil, Pure.pure] at h
    exact (Except.ok.inj h).symm
  | cons r rest ih =>
    intro out h
    rw [List.foldlM_cons, expandAll_nil] at h
    exact ih out h

theorem payload_mem_payloadsOf (a : α) :
    ∀ l : List (Frag α), Frag.payload a ∈ l → a ∈ payloadsOf l := by
  intro l
  induction l with
  | nil => intro h; simp at h
  | cons f rest ih =>
    intro h
    rcases List.mem_cons.1 h with heq | hmem
    · rw [← heq]; simp [payloadsOf]
    · cases f with
      | str s => simpa [payloadsOf] using ih hmem
      | payload b =>
        simp only [payloadsOf, List.mem_cons]
        exact Or.inr (ih hmem)

/-- If the rules fold returns the untouched singleton `[str]`, then every
rule, applied to the whole string, was a no-op. -/
theorem rulesFold_noop_forward (fuel : Nat) (s : JStr) :
    ∀ (rules : List (Rule α)),
      rules.foldlM (fun splitted rule => expandAll fuel rule splitted)
        [Frag.str s] = .ok [Frag.str s] →
      ∀ r ∈ rules, expandFrag fuel r (Frag.str s) = .ok [Frag.str s] := by
  intro rules
  induction rules with
  | nil => intro _ r hr; simp at hr
  | cons r₀ rest ih =>
    intro h r hr
    rw [List.foldlM_cons] at h
    cases h1 : expandAll fuel r₀ [Frag.str s] with
    | error e => rw [h1] at h; exact absurd h (by simp [Bind.bind, Except.bind])
    | ok l₁ =>
      rw [h1] at h
      obtain ⟨d, tail, hd, ht, hout⟩ := expandAll_cons fuel r₀ _ _ _ h1
      have htail : tail = [] :=
        (Except.ok.inj ((expandAll_nil fuel r₀).symm.trans ht)).symm
      subst htail
      rw [List.append_nil] at hout
      rw [hout] at h
      rcases expandFrag_str_cases fuel r₀ s d hd with hcase | hcase | ⟨a, hcase⟩
      · rw [hcase] at hd h
        rcases List.mem_cons.1 hr with hr | hr
        · subst hr; exact hd
        · exact ih h r hr
      · rw [hcase] at h
        have := rulesFold_nil fuel rest _ h
        simp at this
      · have hmem := rulesFold_payload_mem fuel rest d _ a h
          (payload_mem_payloadsOf a d hcase)
        simp [payloadsOf] at hmem

/-- Conversely, if every rule is a no-op on the whole string, the fold
returns the untouched singleton. -/
theorem rulesFold_noop_backward (fuel : Nat) (s : JStr) :
    ∀ (rules : List (Rule α)),
      (∀ r ∈ rules, expandFrag fuel r (Frag.str s) = .ok [Frag.str s]) →
      rules.foldlM (fun splitted rule => expandAll fuel rule splitted)
        [Frag.str s] = .ok [Frag.str s] := by
  intro rules
  induction rules with
  | nil => intro _; rfl
  | cons r₀ rest ih =>
    intro hall
    rw [List.foldlM_cons]
    have h1 : expandAll fuel r₀ [Frag.str s] = .ok [Frag.str s] := by
      have := expandAll_cons_ok fuel r₀ (Frag.str s) [] [Frag.str s] []
        (hall r₀ (List.mem_cons_self r₀ rest)) (expandAll_nil fuel r₀)
      simpa using this
    rw [h1]
    exact ih (fun r hr => hall r (List.mem_cons_of_mem r₀ hr))

/-! ### The `NReplacer` chain is the non-string specialization of the
general chain -/

theorem glueAuxV_toV (rep : NReplacer α) (sep : JStr) :
    ∀ pieces : List JStr, glueAuxV (toVRep rep) sep pieces = glueAux rep sep pieces := by
  intro pieces
  match pieces with
  | [] => rfl
  | [p] => rfl
  | p :: q :: rest =>
    simp [glueAuxV, glueAux, glueAuxV_toV rep sep (q :: rest), toVRep]

theorem regexLoopV_toV (re : JSRegExp) (rep : NReplacer α) :
    ∀ (fuel : Nat) (str : JStr) (li k : Nat) (acc : List (Frag α)),
      regexLoopV re (toVRep rep) fuel str li k acc =
        regexLoop re rep fuel str li k acc := by
  intro fuel
  induction fuel with
  | zero => intro str li k acc; rfl
  | succ fuel ih =>
    intro str li k acc
    cases hm : (re.exec str li).1 with
    | none => simp [regexLoopV, regexLoop, hm]
    | some m =>
      simp only [regexLoopV, regexLoop, hm, toVRep]
      exact ih _ _ _ _

theorem strSplitAndJoinV_toV (fuel : Nat) (str : JStr) (sep : Pattern α)
    (li : Nat) (rep : NReplacer α) :
    strSplitAndJoinV fuel str sep li (toVRep rep) =
      strSplitAndJoin fuel str sep li rep := by
  cases sep with
  | lit s => simp [strSplitAndJoinV, strSplitAndJoin, glueAuxV_toV]
  | invalid => rfl
  | regex re => exact regexLoopV_toV re rep fuel str 0 0 []

theorem expandFragV_toV (fuel : Nat) (rule : Rule α) (frag : Frag α) :
    expandFragV fuel (Rule.toV rule) frag = expandFrag fuel rule frag := by
  cases frag with
  | payload a => rfl
  | str s =>
    simp only [expandFragV, expandFrag, Rule.toV]
    rw [strSplitAndJoinV_toV]

theorem expandAllV_nil (fuel : Nat) (rule : RuleV α) :
    expandAllV fuel rule [] = .ok [] := rfl

theorem expandAllV_cons_eq (fuel : Nat) (rule : RuleV α) (f : Frag α)
    (rest : List (Frag α)) :
    expandAllV fuel rule (f :: rest) =
      (do
        let tail ← expandAllV fuel rule rest
        let d ← expandFragV fuel rule f
        pure (d ++ tail)) := rfl

theorem expandAllV_cons_ok (fuel : Nat) (rule : RuleV α) (f : Frag α)
    (rest : List (Frag α)) (d tail : List (Frag α))
    (hd : expandFragV fuel rule f = .ok d)
    (ht : expandAllV fuel rule rest = .ok tail) :
    expandAllV fuel rule (f :: rest) = .ok (d ++ tail) := by
  rw [expandAllV_cons_eq, ht, hd]
  rfl

theorem expandAllV_toV (fuel : Nat) (rule : Rule α) :
    ∀ l : List (Frag α), expandAllV fuel (Rule.toV rule) l = expandAll fuel rule l := by
  intro l
  induction l with
  | nil => rfl
  | cons f rest ih =>
    rw [expandAllV_cons_eq, expandAll_cons_eq, ih, expandFragV_toV]

theorem byRulesV_toV (fuel : Nat) (s : JStr) (rules : List (Rule α)) :
    strSplitAndJoinByRulesV fuel s (rules.map Rule.toV) =
      strSplitAndJoinByRules fuel s rules := by
  unfold strSplitAndJoinByRulesV strSplitAndJoinByRules
  suffices h : ∀ (rules : List (Rule α)) (init : List (Frag α)),
      (rules.map Rule.toV).foldlM (fun splitted rule => expandAllV fuel rule splitted)
          init =
        rules.foldlM (fun splitted rule => expandAll fuel rule splitted) init by
    exact h rules _
  intro rules
  induction rules with
  | nil => intro init; rfl
  | cons r rest ih =>
    intro init
    simp only [List.map_cons, List.foldlM_cons, expandAllV_toV]
    cases expandAll fuel r init with
    | error e => simp [Bind.bind, Except.bind]
    | ok l₁ => simp [Bind.bind, Except.bind, ih]

/-- With general replacers, "every rule is a no-op on the whole string"
still implies that the fold returns the untouched singleton. -/
theorem rulesFoldV_noop_backward (fuel : Nat) (s : JStr) :
    ∀ (rules : List (RuleV α)),
      (∀ r ∈ rules, expandFragV fuel r (Frag.str s) = .ok [Frag.str s]) →
      rules.foldlM (fun splitted rule => expandAllV fuel rule splitted)
        [Frag.str s] = .ok [Frag.str s] := by
  intro rules
  induction rules with
  | nil => intro _; rfl
  | cons r₀ rest ih =>
    intro hall
    rw [List.foldlM_cons]
    have h1 : expandAllV fuel r₀ [Frag.str s] = .ok [Frag.str s] := by
      have := expandAllV_cons_ok fuel r₀ (Frag.str s) [] [Frag.str s] []
        (hall r₀ (List.mem_cons_self r₀ rest)) (expandAllV_nil fuel r₀)
      simpa using this
    rw [h1]
    exact ih (fun r hr => hall r (List.mem_cons_of_mem r₀ hr))

/-! ### Lemmas about `replaceTextNode` -/

/-- Full characterization of a successful `replaceTextNode` call in terms
of its intermediate values. -/
theorem replaceTextNode_ok (fuel : Nat) (pre post : List (DomChild α))
    (pid tid : Nat) (content : JStr) (rules : List (Rule α))
    (wrapper : Option (List (Frag α) → List (Frag α))) (hasCallback : Bool)
    (r : RTNOut α)
    (h : replaceTextNode fuel pre post pid tid content rules wrapper hasCallback
          = .ok r) :
    ∃ splitted, strSplitAndJoinByRules fuel content rules = .ok splitted ∧
      r.returned = wrapApply wrapper splitted ∧
      r.changed = changedOf r.returned content ∧
      r.children = (if r.changed then pre ++ r.returned.map fragToChild ++ post
        else pre ++ [DomChild.textNode tid content] ++ post) ∧
      r.cbArgs = (if hasCallback then
          some [CbArg.nodeSeq r.returned, CbArg.domNode (DomChild.otherNode pid),
                CbArg.domNode (DomChild.textNode tid content), CbArg.flag r.changed]
        else none) := by
  unfold replaceTextNode at h
  cases hsj : strSplitAndJoinByRules fuel content rules with
  | error e => rw [hsj] at h; exact absurd h (by simp [Bind.bind, Except.bind])
  | ok splitted =>
    rw [hsj] at h
    simp only [Bind.bind, Except.bind, Pure.pure, Except.pure, Except.ok.injEq] at h
    refine ⟨splitted, rfl, ?_⟩
    cases h
    exact ⟨rfl, rfl, rfl, rfl⟩

/-! ### Lemmas about the `replaceTexts` trace -/

/-- The processing events of the trace are exactly the snapshot of text
nodes, in original document order, whatever the pacing parameters. -/
theorem replaceTextsAux_procs (delay size : Nat) :
    ∀ (nodes : List α) (i : Nat),
      (replaceTextsAux delay size i nodes).filterMap procOf = nodes := by
  intro nodes
  induction nodes with
  | nil => intro i; rfl
  | cons x rest ih =>
    intro i
    rw [replaceTextsAux, List.filterMap_append, List.filterMap_append]
    have hy : ((if 0 < delay then
        if i = 0 then [PEvent.microYield (α := α)]
        else if i % size = 0 then [PEvent.timeoutYield delay]
        else []
      else []) : List (PEvent α)).filterMap procOf = [] := by
      split_ifs <;> simp [procOf]
    rw [hy]
    simp [procOf, ih (i + 1)]

/-! ### The claims -/

/-- C1: refuted — `strSplitAndJoin` does **not** advance past a
zero-length match.  On `strSplitAndJoin("abc", /x*/, replacer)` the first
match is the empty string at index 0, so
`str = str.substring(match.index + match[0].length)` leaves `str`
unchanged, `separator.lastIndex` is reset to 0, and the `while` loop
re-enters the identical state forever: the fueled model returns
`outOfFuel` for every fuel bound and every replacer. -/
theorem claim1_zero_length_match_diverges (α : Type) (fuel lastIndex : Nat)
    (rep : NReplacer α) :
    strSplitAndJoin fuel "abc".data (Pattern.regex xstarRe) lastIndex rep =
      .error SJErr.outOfFuel := by
  unfold strSplitAndJoin
  exact xstar_diverges rep fuel 0 []

/-- C2 counterexample: on `strSplitAndJoin("a,b,c", /,/ , replacer)` the
second replacer invocation receives match offset `1` and string `"b,c"`
(the still-unscanned remainder), not offset `3` and the original string
`"a,b,c"` as the claim requires for every match. -/
theorem claim2_counterexample :
    (payloadsOf (fragsOf
        (strSplitAndJoin 10 "a,b,c".data (Pattern.regex commaRe) 0 idRep)))[1]? =
        some (RepCall.re ⟨",".data, [], 1, "b,c".data⟩) ∧
      some (RepCall.re ⟨",".data, [], 1, "b,c".data⟩) ≠
        some (RepCall.re ⟨",".data, [], 3, "a,b,c".data⟩) :=
  ⟨by decide, by decide⟩

/-- C2 (amended): every replacer invocation of the regex branch receives
the full match text, the capture groups, and the match's start offset
within — and the text of — the remaining not-yet-consumed suffix of the
original string (the source rebinds `str` to the tail after each match);
for the first invocation that suffix is the whole original string. -/
theorem claim2_replacer_args (re : JSRegExp) (str : JStr) (fuel lastIndex : Nat)
    (out : List (Frag RepCall))
    (h : strSplitAndJoin fuel str (Pattern.regex re) lastIndex idRep = .ok out) :
    (∀ c ∈ payloadsOf out, ∃ args, c = RepCall.re args ∧
        (∃ d, args.input = str.drop d) ∧
        (re.exec args.input 0).1 = some ⟨args.index, args.full, args.groups⟩) ∧
      (∀ c, (payloadsOf out).head? = some c →
        ∃ args, c = RepCall.re args ∧ args.input = str) := by
  unfold strSplitAndJoin at h
  constructor
  · have h0 : regexLoop re idRep fuel (str.drop 0) 0 0 [] = .ok out := by
      rw [List.drop_zero]; exact h
    exact regexLoop_args re str fuel 0 0 [] out h0 (by intro a ha; simp [payloadsOf] at ha)
  · intro c hc
    exact regexLoop_first_arg re str fuel out h c hc

/-- C2 witness: the second invocation of the run on `"a,b,c"` with `/,/`
satisfies the amended property (its `input` is the suffix `"b,c"`). -/
theorem claim2_replacer_args_witness :
    ∃ args, RepCall.re (⟨",".data, [], 1, "b,c".data⟩ : RepArgs) = RepCall.re args ∧
      (∃ d, args.input = "a,b,c".data.drop d) ∧
      (commaRe.exec args.input 0).1 = some ⟨args.index, args.full, args.groups⟩ :=
  (claim2_replacer_args commaRe "a,b,c".data 10 0
      [Frag.str "a".data, Frag.payload (RepCall.re ⟨",".data, [], 1, "a,b,c".data⟩),
       Frag.str "b".data, Frag.payload (RepCall.re ⟨",".data, [], 1, "b,c".data⟩),
       Frag.str "c".data] (by decide)).1
    (RepCall.re ⟨",".data, [], 1, "b,c".data⟩) (by decide)

/-- C8: a `separator` that is neither a string nor a `RegExp` makes
`strSplitAndJoin` fail synchronously with the pattern-type error (the
source's `TypeError`, the spec's `InvalidPatternError`), producing no
fragment sequence, for every string, replacer and fuel. -/
theorem claim8_invalid_pattern (α : Type) (fuel lastIndex : Nat) (str : JStr)
    (rep : NReplacer α) :
    strSplitAndJoin fuel str Pattern.invalid lastIndex rep =
      .error SJErr.invalidPattern := rfl

/-- C10: the result of `strSplitAndJoin` on a regex does not depend on the
pattern's `lastIndex` at call time: the source assigns
`separator.lastIndex = 0` before the scan and after every match, so two
calls differing only in the initial `lastIndex` coincide. -/
theorem claim10_lastIndex_independent (α : Type) (fuel : Nat) (str : JStr)
    (re : JSRegExp) (li₁ li₂ : Nat) (rep : NReplacer α) :
    strSplitAndJoin fuel str (Pattern.regex re) li₁ rep =
      strSplitAndJoin fuel str (Pattern.regex re) li₂ rep := rfl

/-- C3 counterexample: with string-valued replacers the "exactly when"
fails.  On `strSplitAndJoinByRules("a", [{pattern:"a", replacer:"a"},
{pattern:"", replacer:"z"}])` the first rule splits `"a"` into
`["", "a", ""]` (its replacer output `"a"` is a plain string), and the
second rule — whose empty pattern splits the empty string into zero
pieces — deletes both empty-string fragments, collapsing the sequence
back to `["a"] = [s]` although both rules altered fragments. -/
theorem claim3_counterexample :
    (strSplitAndJoinByRulesV 1 "a".data
        ([⟨Pattern.lit "a".data, fun _ _ => Frag.str "a".data, 0⟩,
          ⟨Pattern.lit "".data, fun _ _ => Frag.str "z".data, 0⟩] :
          List (RuleV JStr)) =
      .ok [Frag.str "a".data]) ∧
      (expandFragV 1
          (⟨Pattern.lit "a".data, fun _ _ => Frag.str "a".data, 0⟩ : RuleV JStr)
          (Frag.str "a".data) ≠ .ok [Frag.str "a".data]) :=
  ⟨by decide, by decide⟩

/-- C3 (amended): `strSplitAndJoinByRules(s, rules)` returns the singleton
`[s]` whenever no rule alters any fragment, and — provided every rule's
replacer returns only non-string values — it returns `[s]` *exactly* when
no rule alters any fragment (a string-valued replacer output is
indistinguishable from a split piece, is re-scanned by later rules, and
can make the sequence collapse back to `[s]` after alterations); and
whenever the final sequence passed to `replaceTextNode` is a single
element equal to the node's original text content, `replaceTextNode`
performs zero DOM mutations — the original text node is left in place. -/
theorem claim3_noop_amended :
    (∀ (α : Type) (fuel : Nat) (s : JStr) (rulesV : List (RuleV α)),
        (∀ r ∈ rulesV, expandFragV fuel r (Frag.str s) = .ok [Frag.str s]) →
        strSplitAndJoinByRulesV fuel s rulesV = .ok [Frag.str s]) ∧
      (∀ (α : Type) (fuel : Nat) (s : JStr) (rules : List (Rule α)),
        strSplitAndJoinByRulesV fuel s (rules.map Rule.toV) = .ok [Frag.str s] ↔
          ∀ r ∈ rules, expandFragV fuel (Rule.toV r) (Frag.str s) =
            .ok [Frag.str s]) ∧
      (∀ (α : Type) (fuel : Nat) (pre post : List (DomChild α)) (pid tid : Nat)
          (content : JStr) (rules : List (Rule α))
          (wrapper : Option (List (Frag α) → List (Frag α)))
          (hasCallback : Bool) (r : RTNOut α),
        replaceTextNode fuel pre post pid tid content rules wrapper hasCallback
            = .ok r →
        r.returned = [Frag.str content] →
        r.children = pre ++ [DomChild.textNode tid content] ++ post ∧
          r.changed = false) := by
  refine ⟨?_, ?_, ?_⟩
  · intro α fuel s rulesV hall
    exact rulesFoldV_noop_backward fuel s rulesV hall
  · intro α fuel s rules
    rw [byRulesV_toV]
    simp only [expandFragV_toV]
    exact ⟨rulesFold_noop_forward fuel s rules, rulesFold_noop_backward fuel s rules⟩
  · intro α fuel pre post pid tid content rules wrapper hasCallback r h hret
    obtain ⟨splitted, hsj, hr, hch, hchild, hcb⟩ :=
      replaceTextNode_ok fuel pre post pid tid content rules wrapper hasCallback r h
    have hc : r.changed = false := by
      rw [hch, hret]
      simp [changedOf, fragEqStr]
    refine ⟨?_, hc⟩
    rw [hchild, hc]
    simp

/-- C3 witness: the amended statement exercised at concrete inputs. -/
theorem claim3_noop_amended_witness :
    (strSplitAndJoinByRulesV 1 "ab".data ([] : List (RuleV JStr)) =
        .ok [Frag.str "ab".data]) ∧
      (strSplitAndJoinByRulesV 1 "ab".data
          (([] : List (Rule JStr)).map Rule.toV) = .ok [Frag.str "ab".data]) ∧
      ((⟨[DomChild.textNode 3 "ab".data], [Frag.str "ab".data], false, none⟩ :
          RTNOut JStr).children =
        [] ++ [DomChild.textNode 3 "ab".data] ++ [] ∧
       (⟨[DomChild.textNode 3 "ab".data], [Frag.str "ab".data], false, none⟩ :
          RTNOut JStr).changed = false) := by
  refine ⟨?_, ?_, ?_⟩
  · exact claim3_noop_amended.1 JStr 1 "ab".data [] (by simp)
  · exact (claim3_noop_amended.2.1 JStr 1 "ab".data []).mpr (by simp)
  · exact claim3_noop_amended.2.2 JStr 1 [] [] 7 3 "ab".data [] none false
      ⟨[DomChild.textNode 3 "ab".data], [Frag.str "ab".data], false, none⟩
      (by decide) (by decide)

/-- C4: with a literal string separator, `strSplitAndJoin` splits on every
non-overlapping occurrence (the string fragments of the result are exactly
`str.split(sep)`), inserts exactly one replacer payload per gap between
adjacent pieces, evaluates the replacer once per occurrence — so a
node-valued replacer hands every occurrence a clone with a distinct
identity, and mutating the store at one clone's id leaves the others
untouched — and the worked example
`splitAndJoin("a,b,,c", ",", () => "|")` evaluates to
`["a","|","b","|","","|","c"]`. -/
theorem claim4_literal_split :
    (strSplitAndJoin 1 "a,b,,c".data (Pattern.lit ",".data) 0 (normConst "|".data) =
        .ok [Frag.str "a".data, Frag.payload "|".data, Frag.str "b".data,
             Frag.payload "|".data, Frag.str "".data, Frag.payload "|".data,
             Frag.str "c".data]) ∧
      (∀ (α : Type) (fuel li : Nat) (str sep : JStr) (rep : NReplacer α),
        stringsOf (fragsOf (strSplitAndJoin fuel str (Pattern.lit sep) li rep)) =
            jsSplit str sep ∧
          (payloadsOf (fragsOf
            (strSplitAndJoin fuel str (Pattern.lit sep) li rep))).length =
            (jsSplit str sep).length - 1) ∧
      (∀ (fuel li : Nat) (str sep : JStr) (tpl : CNode),
        (payloadsOf (fragsOf (strSplitAndJoin fuel str (Pattern.lit sep) li
            (normNode tpl)))).Pairwise
          (fun a b => a.id ≠ b.id ∧
            ∀ store v, setData store a.id v b.id = store b.id)) := by
  refine ⟨by decide, ?_, ?_⟩
  · intro α fuel li str sep rep
    exact ⟨glueAux_strings rep sep (jsSplit str sep),
      glueAux_payload_count rep sep (jsSplit str sep)⟩
  · intro fuel li str sep tpl
    show (payloadsOf (glueAux (normNode tpl) sep (jsSplit str sep)).2).Pairwise _
    rw [glueAux_payloads, List.pairwise_map, List.pairwise_reverse]
    refine (List.pairwise_lt_range _).imp ?_
    intro a b hab
    refine ⟨by simp [normNode, cloneNode]; omega, ?_⟩
    intro store v
    simp only [normNode, cloneNode, setData]
    rw [if_neg (by simp; omega)]

/-- C5: in the fold of `strSplitAndJoinByRules`, a payload fragment passes
through every rule untouched (it is never re-matched), a string fragment
shorter than a rule's (set) `minLength` passes through that rule
untouched, and one full pass of a rule over the sequence keeps the
already-present payloads as a subsequence of the output — none is
removed and none is reordered. -/
theorem claim5_fold_invariants :
    (∀ (α : Type) (fuel : Nat) (rule : Rule α) (a : α),
        expandFrag fuel rule (Frag.payload a) = .ok [Frag.payload a]) ∧
      (∀ (α : Type) (fuel : Nat) (rule : Rule α) (s : JStr),
        rule.minLength ≠ 0 → s.length < rule.minLength →
        expandFrag fuel rule (Frag.str s) = .ok [Frag.str s]) ∧
      (∀ (α : Type) (fuel : Nat) (rule : Rule α) (l out : List (Frag α)),
        expandAll fuel rule l = .ok out →
        (payloadsOf l).Sublist (payloadsOf out)) :=
  ⟨fun _ fuel rule a => expandFrag_payload fuel rule a,
   fun _ fuel rule s h0 hlt => expandFrag_minLength fuel rule s h0 hlt,
   fun _ fuel rule l out h => expandAll_payload_sublist fuel rule l out h⟩

/-- C5 witness: a rule with `minLength = 5` and pattern `","` leaves the
3-character fragment `"a,b"` untouched even though the pattern matches it,
and a pass over `[payload "x", "a,b"]` keeps the payload. -/
theorem claim5_witness :
    (expandFrag 1 (⟨Pattern.lit ",".data, normConst "|".data, 5⟩ : Rule JStr)
        (Frag.str "a,b".data) = .ok [Frag.str "a,b".data]) ∧
      (payloadsOf [Frag.payload "x".data, Frag.str "a,b".data]).Sublist
        (payloadsOf [Frag.payload "x".data, Frag.str "a,b".data]) := by
  constructor
  · exact claim5_fold_invariants.2.1 JStr 1
      ⟨Pattern.lit ",".data, normConst "|".data, 5⟩ "a,b".data
      (by decide) (by decide)
  · exact claim5_fold_invariants.2.2 JStr 1
      ⟨Pattern.lit ",".data, normConst "|".data, 5⟩
      [Frag.payload "x".data, Frag.str "a,b".data]
      [Frag.payload "x".data, Frag.str "a,b".data] (by decide)

/-- C6 counterexample: in paced mode the code also suspends **before the
first node** (`if(!i) await Promise.resolve()`), so with 5 text nodes and
group size 2 the yield points are not only after nodes 2 and 4: the trace
starts with a microtask yield, refuting "a scheduler yield occurs only at
group boundaries". -/
theorem claim6_counterexample :
    replaceTextsTrace 1 2 [1, 2, 3, 4, 5] =
        [PEvent.microYield, PEvent.process 1, PEvent.process 2,
         PEvent.timeoutYield 1, PEvent.process 3, PEvent.process 4,
         PEvent.timeoutYield 1, PEvent.process 5] ∧
      replaceTextsTrace 1 2 [1, 2, 3, 4, 5] ≠
        [PEvent.process 1, PEvent.process 2, PEvent.timeoutYield 1,
         PEvent.process 3, PEvent.process 4, PEvent.timeoutYield 1,
         PEvent.process 5] :=
  ⟨by decide, by decide⟩

/-- C6 (amended): in paced mode (`delay > 0`) the snapshot of text nodes
is processed strictly in original order whatever the group size, and with
group size 2 and 5 nodes the trace is: a microtask yield before the first
node, then nodes 1 and 2, a timed yield, nodes 3 and 4, a timed yield,
node 5 — timed yields occur exactly at group boundaries, plus the one
initial microtask suspension the claim omitted. -/
theorem claim6_paced_order (α : Type) (delay size : Nat) (nodes : List α)
    (n1 n2 n3 n4 n5 : α) (hd : 0 < delay) :
    (replaceTextsTrace delay size nodes).filterMap procOf = nodes ∧
      replaceTextsTrace delay 2 [n1, n2, n3, n4, n5] =
        [PEvent.microYield, PEvent.process n1, PEvent.process n2,
         PEvent.timeoutYield delay, PEvent.process n3, PEvent.process n4,
         PEvent.timeoutYield delay, PEvent.process n5] := by
  constructor
  · exact replaceTextsAux_procs delay size nodes 0
  · simp [replaceTextsTrace, replaceTextsAux, hd]

/-- C6 witness: the amended trace shape at `delay = 7`, `size = 2`. -/
theorem claim6_witness :
    ((replaceTextsTrace 7 2 [10, 20]).filterMap procOf = [10, 20]) ∧
      replaceTextsTrace 7 2 [1, 2, 3, 4, 5] =
        [PEvent.microYield, PEvent.process 1, PEvent.process 2,
         PEvent.timeoutYield 7, PEvent.process 3, PEvent.process 4,
         PEvent.timeoutYield 7, PEvent.process 5] :=
  ⟨(claim6_paced_order Nat 7 2 [10, 20] 1 2 3 4 5 (by decide)).1,
   (claim6_paced_order Nat 7 2 [10, 20] 1 2 3 4 5 (by decide)).2⟩

/-- C7 counterexample: the callback is invoked as
`callback.call(textNode, newNodes, parent, textNode, changed)` — a
four-argument list whose second argument is the **parent** node, not the
original text node, so the invocation does not consist of exactly the new
node sequence, the original node and the changed flag. -/
theorem claim7_counterexample :
    (replaceTextNode 1 [] [] 7 3 "ab".data ([] : List (Rule JStr)) none true =
        .ok ⟨[DomChild.textNode 3 "ab".data], [Frag.str "ab".data], false,
             some [CbArg.nodeSeq [Frag.str "ab".data],
                   CbArg.domNode (DomChild.otherNode 7),
                   CbArg.domNode (DomChild.textNode 3 "ab".data),
                   CbArg.flag false]⟩) ∧
      (some [CbArg.nodeSeq [Frag.str "ab".data],
             CbArg.domNode (DomChild.otherNode 7),
             CbArg.domNode (DomChild.textNode 3 "ab".data),
             CbArg.flag false] : Option (List (CbArg JStr))) ≠
        some [CbArg.nodeSeq [Frag.str "ab".data],
              CbArg.domNode (DomChild.textNode 3 "ab".data),
              CbArg.flag false] :=
  ⟨by decide, by decide⟩

/-- C7 (amended): whenever a callback is supplied, it is invoked after the
replacement step with the new node sequence, **the parent node**, the
original text node, and the boolean stating whether a DOM mutation
occurred — in that order. -/
theorem claim7_callback_args (α : Type) (fuel : Nat) (pre post : List (DomChild α))
    (pid tid : Nat) (content : JStr) (rules : List (Rule α))
    (wrapper : Option (List (Frag α) → List (Frag α))) (r : RTNOut α)
    (h : replaceTextNode fuel pre post pid tid content rules wrapper true = .ok r) :
    r.cbArgs = some [CbArg.nodeSeq r.returned,
      CbArg.domNode (DomChild.otherNode pid),
      CbArg.domNode (DomChild.textNode tid content), CbArg.flag r.changed] := by
  obtain ⟨splitted, hsj, hr, hch, hchild, hcb⟩ :=
    replaceTextNode_ok fuel pre post pid tid content rules wrapper true r h
  simpa using hcb

/-- C7 witness: the amended callback-argument shape on a concrete run. -/
theorem claim7_witness :
    (⟨[DomChild.textNode 3 "ab".data], [Frag.str "ab".data], false,
        some [CbArg.nodeSeq [Frag.str "ab".data],
              CbArg.domNode (DomChild.otherNode 7),
              CbArg.domNode (DomChild.textNode 3 "ab".data),
              CbArg.flag false]⟩ : RTNOut JStr).cbArgs =
      some [CbArg.nodeSeq (⟨[DomChild.textNode 3 "ab".data],
              [Frag.str "ab".data], false,
              some [CbArg.nodeSeq [Frag.str "ab".data],
                    CbArg.domNode (DomChild.otherNode 7),
                    CbArg.domNode (DomChild.textNode 3 "ab".data),
                    CbArg.flag false]⟩ : RTNOut JStr).returned,
            CbArg.domNode (DomChild.otherNode 7),
            CbArg.domNode (DomChild.textNode 3 "ab".data),
            CbArg.flag (⟨[DomChild.textNode 3 "ab".data],
              [Frag.str "ab".data], false,
              some [CbArg.nodeSeq [Frag.str "ab".data],
                    CbArg.domNode (DomChild.otherNode 7),
                    CbArg.domNode (DomChild.textNode 3 "ab".data),
                    CbArg.flag false]⟩ : RTNOut JStr).changed] :=
  claim7_callback_args JStr 1 [] [] 7 3 "ab".data [] none
    ⟨[DomChild.textNode 3 "ab".data], [Frag.str "ab".data], false,
     some [CbArg.nodeSeq [Frag.str "ab".data],
           CbArg.domNode (DomChild.otherNode 7),
           CbArg.domNode (DomChild.textNode 3 "ab".data),
           CbArg.flag false]⟩ (by decide)

/-- C9: when the supplied wrapper returns the empty sequence,
`replaceTextNode` removes the original text node from its parent's child
list with nothing inserted in its place, reports the operation as a
mutation, and returns the empty sequence. -/
theorem claim9_empty_wrapper (α : Type) (fuel : Nat) (pre post : List (DomChild α))
    (pid tid : Nat) (content : JStr) (rules : List (Rule α))
    (w : List (Frag α) → List (Frag α)) (hasCallback : Bool) (r : RTNOut α)
    (h : replaceTextNode fuel pre post pid tid content rules (some w) hasCallback
          = .ok r)
    (hret : r.returned = []) :
    r.children = pre ++ post ∧ r.changed = true ∧ r.returned = [] := by
  obtain ⟨splitted, hsj, hr, hch, hchild, hcb⟩ :=
    replaceTextNode_ok fuel pre post pid tid content rules (some w) hasCallback r h
  have hc : r.changed = true := by rw [hch, hret]; rfl
  refine ⟨?_, hc, hret⟩
  rw [hchild, hc, hret]
  simp

/-- C9 witness: a wrapper that discards everything on a concrete node. -/
theorem claim9_witness :
    ((⟨[], [], true, none⟩ : RTNOut JStr).children = [] ++ [] ∧
      (⟨[], [], true, none⟩ : RTNOut JStr).changed = true ∧
      (⟨[], [], true, none⟩ : RTNOut JStr).returned = []) :=
  claim9_empty_wrapper JStr 1 [] [] 7 3 "ab".data [] (fun _ => []) false
    ⟨[], [], true, none⟩ (by decide) (by decide)

end domCrawler
